import Mathlib

/-!
Verification development for the Bayesian GPLVM demonstration notebook
(`doc/source/notebooks/basics/GPLVM.ipynb`).  The notebook itself is a linear
sequence of library calls; the inference core it exercises (kernel, variational
posterior, ELBO, optimizer, parameter transforms) lives in the external GPflow
library and is not part of the repository's sources.  Following the design
specification, those missing parts are modelled here from the spec's own
contracts, while everything the notebook itself does (data flow, the objective
handed to the optimizer, the inducing-point slice of the permuted PCA means) is
embedded from the notebook cells directly.
-/

namespace GPLVMSpec

/-- Modelled from the spec (section 4.6, parameter transform layer; the
implementation is in the external library, shown as `Softplus` in the
notebook's `print_summary` output): the forward transform mapping an
unconstrained real to a strictly positive constrained value,
`softplus x = log (1 + exp x)`. -/
noncomputable def softplus (x : ℝ) : ℝ := Real.log (1 + Real.exp x)

/-- Modelled from the spec (section 4.6): the inverse transform mapping a
strictly positive constrained value back to its unconstrained representation,
`softplusInv y = log (exp y - 1)`. -/
noncomputable def softplusInv (y : ℝ) : ℝ := Real.log (Real.exp y - 1)

theorem softplus_pos (x : ℝ) : 0 < softplus x := by
  have h : (1 : ℝ) < 1 + Real.exp x := by
    have := Real.exp_pos x
    linarith
  exact Real.log_pos h

/-- Modelled from the spec (section 4.3): the closed-form Kullback-Leibler
divergence of a one-dimensional Gaussian with mean `μ` and variance `v`
against the standard normal, `(μ² + v - log v - 1) / 2`. -/
noncomputable def klGauss (μ v : ℝ) : ℝ := (μ ^ 2 + v - Real.log v - 1) / 2

/-- Modelled from the spec (section 4.3): the KL term of the variational latent
posterior (N independent Q-dimensional diagonal Gaussians) against the standard
normal prior, summed over all N points and Q dimensions. -/
noncomputable def klTotal (N Q : ℕ) (μ v : Fin N → Fin Q → ℝ) : ℝ :=
  ∑ i, ∑ q, klGauss (μ i q) (v i q)

theorem klGauss_nonneg {μ v : ℝ} (hv : 0 < v) : 0 ≤ klGauss μ v := by
  have hlog := Real.log_le_sub_one_of_pos hv
  have hsq : 0 ≤ μ ^ 2 := sq_nonneg μ
  unfold klGauss
  linarith

theorem klGauss_eq_zero_iff {μ v : ℝ} (hv : 0 < v) :
    klGauss μ v = 0 ↔ μ = 0 ∧ v = 1 := by
  constructor
  · intro h
    have hlog := Real.log_le_sub_one_of_pos hv
    have hsq : 0 ≤ μ ^ 2 := sq_nonneg μ
    unfold klGauss at h
    have hμsq : μ ^ 2 = 0 := by linarith
    have hμ : μ = 0 := by
      have := sq_eq_zero_iff.mp hμsq
      exact this
    refine ⟨hμ, ?_⟩
    by_contra hne
    have hstrict := Real.log_lt_sub_one_of_pos hv hne
    linarith
  · rintro ⟨hμ, hvone⟩
    subst hμ
    subst hvone
    unfold klGauss
    simp

/-- C3: for every strictly positive constrained value, applying the inverse
transform and then the forward transform recovers the value exactly; the
forward transform is strictly monotonic and differentiable everywhere. -/
theorem softplus_transform_contract :
    (∀ y : ℝ, 0 < y → softplus (softplusInv y) = y) ∧
    StrictMono softplus ∧ Differentiable ℝ softplus := by
  refine ⟨?_, ?_, ?_⟩
  · intro y hy
    have h1 : (0 : ℝ) < Real.exp y - 1 := by
      have := Real.exp_lt_exp.mpr hy
      rw [Real.exp_zero] at this
      linarith
    unfold softplus softplusInv
    rw [Real.exp_log h1]
    have h2 : 1 + (Real.exp y - 1) = Real.exp y := by ring
    rw [h2, Real.log_exp]
  · intro a b hab
    unfold softplus
    have ha : (0 : ℝ) < 1 + Real.exp a := by positivity
    have hexp : Real.exp a < Real.exp b := Real.exp_lt_exp.mpr hab
    exact Real.log_lt_log ha (by linarith)
  · have hne : ∀ x : ℝ, (1 : ℝ) + Real.exp x ≠ 0 := fun x => by positivity
    have hdiff : Differentiable ℝ fun x : ℝ => (1 : ℝ) + Real.exp x :=
      (differentiable_const 1).add Real.differentiable_exp
    exact hdiff.log hne

theorem softplus_transform_contract_witness :
    (0 : ℝ) < 1 ∧ softplus (softplusInv 1) = 1 :=
  ⟨one_pos, softplus_transform_contract.1 1 one_pos⟩

/-- C4: with all variances strictly positive, the total KL term is zero exactly
when every latent posterior mean component is zero and every variance component
is one; and for N = 1 it reduces to a single Q-dimensional
Gaussian-to-standard-normal divergence. -/
theorem klTotal_zero_iff (N Q : ℕ) (μ v : Fin N → Fin Q → ℝ)
    (hv : ∀ i q, 0 < v i q) :
    (klTotal N Q μ v = 0 ↔ (∀ i q, μ i q = 0) ∧ (∀ i q, v i q = 1)) ∧
    (∀ (μ1 v1 : Fin 1 → Fin Q → ℝ),
      klTotal 1 Q μ1 v1 = ∑ q, klGauss (μ1 0 q) (v1 0 q)) := by
  constructor
  · constructor
    · intro h
      have hrow : ∀ i ∈ Finset.univ, (0 : ℝ) ≤ ∑ q, klGauss (μ i q) (v i q) :=
        fun i _ => Finset.sum_nonneg fun q _ => klGauss_nonneg (hv i q)
      unfold klTotal at h
      have hrows := (Finset.sum_eq_zero_iff_of_nonneg hrow).mp h
      have hcell : ∀ i q, klGauss (μ i q) (v i q) = 0 := by
        intro i q
        have hterm : ∀ q' ∈ Finset.univ, (0 : ℝ) ≤ klGauss (μ i q') (v i q') :=
          fun q' _ => klGauss_nonneg (hv i q')
        have := (Finset.sum_eq_zero_iff_of_nonneg hterm).mp
          (hrows i (Finset.mem_univ i))
        exact this q (Finset.mem_univ q)
      constructor
      · intro i q
        exact ((klGauss_eq_zero_iff (hv i q)).mp (hcell i q)).1
      · intro i q
        exact ((klGauss_eq_zero_iff (hv i q)).mp (hcell i q)).2
    · rintro ⟨hμ, hvone⟩
      unfold klTotal
      refine Finset.sum_eq_zero fun i _ => Finset.sum_eq_zero fun q _ => ?_
      rw [hμ i q, hvone i q]
      exact (klGauss_eq_zero_iff one_pos).mpr ⟨rfl, rfl⟩
  · intro μ1 v1
    unfold klTotal
    exact Fin.sum_univ_one _

theorem klTotal_zero_iff_witness :
    klTotal 1 1 (fun _ _ => 0) (fun _ _ => 1) = 0 :=
  ((klTotal_zero_iff 1 1 (fun _ _ => 0) (fun _ _ => 1)
    (fun _ _ => one_pos)).1).mpr ⟨fun _ _ => rfl, fun _ _ => rfl⟩

/-- Modelled from the spec (section 4.1, kernel module; the notebook constructs
`gpflow.kernels.RBF` with per-dimension length scales): the squared-exponential
covariance of two latent vectors,
`k(x, y) = variance * exp (-(1/2) ∑ q ((x q - y q) / ℓ q)²)`. -/
noncomputable def rbfKernel {Q : ℕ} (variance : ℝ) (lengthscales : Fin Q → ℝ)
    (x y : Fin Q → ℝ) : ℝ :=
  variance * Real.exp (-(∑ q, ((x q - y q) / lengthscales q) ^ 2) / 2)

/-- Modelled from the spec (section 4.1): the kernel matrix of a batch of latent
vectors evaluated against itself. -/
noncomputable def kernelMatrix {n Q : ℕ} (variance : ℝ) (lengthscales : Fin Q → ℝ)
    (X : Fin n → Fin Q → ℝ) : Matrix (Fin n) (Fin n) ℝ :=
  Matrix.of fun i j => rbfKernel variance lengthscales (X i) (X j)

theorem inner_pow_expand {Q : ℕ} (u v : Fin Q → ℝ) (k : ℕ) :
    (∑ q, u q * v q) ^ k =
      ∑ g : Fin k → Fin Q, (∏ t, u (g t)) * (∏ t, v (g t)) := by
  induction k with
  | zero => simp
  | succ k ih =>
    have hstep : (∑ g : Fin (k + 1) → Fin Q, (∏ t, u (g t)) * (∏ t, v (g t)))
        = ∑ p : Fin Q × (Fin k → Fin Q),
            (u p.1 * ∏ t, u (p.2 t)) * (v p.1 * ∏ t, v (p.2 t)) := by
      rw [← Equiv.sum_comp (Fin.consEquiv fun _ => Fin Q)
          (fun g : Fin (k + 1) → Fin Q => (∏ t, u (g t)) * (∏ t, v (g t)))]
      refine Finset.sum_congr rfl fun p _ => ?_
      simp [Fin.prod_univ_succ]
    rw [pow_succ, ih, hstep, Fintype.sum_prod_type, Fintype.sum_mul_sum]
    rw [Finset.sum_comm]
    exact Finset.sum_congr rfl fun q0 _ => Finset.sum_congr rfl fun g _ => by ring

theorem gram_pow_term_nonneg {n Q : ℕ} (u : Fin n → Fin Q → ℝ) (a : Fin n → ℝ) (k : ℕ) :
    0 ≤ ∑ i, ∑ j, a i * a j * (∑ q, u i q * u j q) ^ k := by
  have hexpand : ∀ i j : Fin n,
      (∑ g : Fin k → Fin Q, (a i * ∏ t, u i (g t)) * (a j * ∏ t, u j (g t)))
        = a i * a j * (∑ q, u i q * u j q) ^ k := by
    intro i j
    rw [inner_pow_expand (u i) (u j) k, Finset.mul_sum]
    exact Finset.sum_congr rfl fun g _ => by ring
  calc (0 : ℝ) ≤ ∑ g : Fin k → Fin Q, (∑ i, a i * ∏ t, u i (g t)) ^ 2 :=
        Finset.sum_nonneg fun g _ => sq_nonneg _
    _ = ∑ g : Fin k → Fin Q, ∑ i, ∑ j,
          (a i * ∏ t, u i (g t)) * (a j * ∏ t, u j (g t)) := by
        refine Finset.sum_congr rfl fun g _ => ?_
        rw [sq, Fintype.sum_mul_sum]
    _ = ∑ i, ∑ j, ∑ g : Fin k → Fin Q,
          (a i * ∏ t, u i (g t)) * (a j * ∏ t, u j (g t)) := by
        rw [Finset.sum_comm]
        exact Finset.sum_congr rfl fun i _ => by rw [Finset.sum_comm]
    _ = ∑ i, ∑ j, a i * a j * (∑ q, u i q * u j q) ^ k :=
        Finset.sum_congr rfl fun i _ => Finset.sum_congr rfl fun j _ => hexpand i j

theorem expGram_nonneg {n Q : ℕ} (u : Fin n → Fin Q → ℝ) (a : Fin n → ℝ) :
    0 ≤ ∑ i, ∑ j, a i * a j * Real.exp (∑ q, u i q * u j q) := by
  have hexp : ∀ x : ℝ,
      Real.exp x = tsum fun k : ℕ => x ^ k / (Nat.factorial k : ℝ) := by
    intro x
    rw [Real.exp_eq_exp_ℝ, NormedSpace.exp_eq_tsum_div]
  have hsummable : ∀ i j : Fin n,
      Summable fun k : ℕ =>
        a i * a j * ((∑ q, u i q * u j q) ^ k / (Nat.factorial k : ℝ)) :=
    fun i j => (Real.summable_pow_div_factorial _).mul_left _
  have h1 : (∑ i, ∑ j, a i * a j * Real.exp (∑ q, u i q * u j q))
      = tsum fun k : ℕ => ∑ i, ∑ j,
          a i * a j * ((∑ q, u i q * u j q) ^ k / (Nat.factorial k : ℝ)) := by
    calc (∑ i, ∑ j, a i * a j * Real.exp (∑ q, u i q * u j q))
        = ∑ i, ∑ j, tsum fun k : ℕ =>
            a i * a j * ((∑ q, u i q * u j q) ^ k / (Nat.factorial k : ℝ)) := by
          refine Finset.sum_congr rfl fun i _ => Finset.sum_congr rfl fun j _ => ?_
          rw [hexp (∑ q, u i q * u j q), ← tsum_mul_left]
      _ = ∑ i, tsum fun k : ℕ => ∑ j,
            a i * a j * ((∑ q, u i q * u j q) ^ k / (Nat.factorial k : ℝ)) := by
          refine Finset.sum_congr rfl fun i _ => ?_
          exact (tsum_sum fun j _ => hsummable i j).symm
      _ = tsum fun k : ℕ => ∑ i, ∑ j,
            a i * a j * ((∑ q, u i q * u j q) ^ k / (Nat.factorial k : ℝ)) := by
          refine (tsum_sum fun i _ => ?_).symm
          exact summable_sum fun j _ => hsummable i j
  rw [h1]
  refine tsum_nonneg fun k => ?_
  have heq : (∑ i, ∑ j, a i * a j * ((∑ q, u i q * u j q) ^ k / (Nat.factorial k : ℝ)))
      = (∑ i, ∑ j, a i * a j * (∑ q, u i q * u j q) ^ k) / (Nat.factorial k : ℝ) := by
    rw [Finset.sum_div]
    refine Finset.sum_congr rfl fun i _ => ?_
    rw [Finset.sum_div]
    exact Finset.sum_congr rfl fun j _ => by ring
  rw [heq]
  exact div_nonneg (gram_pow_term_nonneg u a k) (by positivity)

theorem rbfKernel_factor {Q : ℕ} (variance : ℝ) (ls : Fin Q → ℝ) (x y : Fin Q → ℝ) :
    rbfKernel variance ls x y
      = variance * (Real.exp (-(∑ q, (x q / ls q) ^ 2) / 2)
          * Real.exp (-(∑ q, (y q / ls q) ^ 2) / 2)
          * Real.exp (∑ q, (x q / ls q) * (y q / ls q))) := by
  unfold rbfKernel
  rw [← Real.exp_add, ← Real.exp_add]
  congr 1
  rw [Real.exp_eq_exp]
  have hsum : (∑ q, ((x q - y q) / ls q) ^ 2)
      = (∑ q, (x q / ls q) ^ 2) + (∑ q, (y q / ls q) ^ 2)
        - 2 * ∑ q, (x q / ls q) * (y q / ls q) := by
    rw [Finset.mul_sum, ← Finset.sum_add_distrib, ← Finset.sum_sub_distrib]
    exact Finset.sum_congr rfl fun q _ => by rw [sub_div]; ring
  rw [hsum]
  ring

theorem kernelMatrix_apply_comm {n Q : ℕ} (variance : ℝ) (ls : Fin Q → ℝ)
    (X : Fin n → Fin Q → ℝ) (i j : Fin n) :
    kernelMatrix variance ls X j i = kernelMatrix variance ls X i j := by
  show rbfKernel variance ls (X j) (X i) = rbfKernel variance ls (X i) (X j)
  unfold rbfKernel
  congr 1
  rw [Real.exp_eq_exp]
  have hsum : (∑ q, ((X j q - X i q) / ls q) ^ 2)
      = ∑ q, ((X i q - X j q) / ls q) ^ 2 :=
    Finset.sum_congr rfl fun q _ => by ring
  rw [hsum]

theorem kernelMatrix_quadratic_nonneg {n Q : ℕ} (variance : ℝ) (ls : Fin Q → ℝ)
    (X : Fin n → Fin Q → ℝ) (hvar : 0 ≤ variance) (x : Fin n → ℝ) :
    0 ≤ ∑ i, ∑ j, x i * (kernelMatrix variance ls X i j * x j) := by
  have hgram := expGram_nonneg (fun i q => X i q / ls q)
      (fun i => x i * Real.exp (-(∑ q, (X i q / ls q) ^ 2) / 2))
  have heq : (∑ i, ∑ j, x i * (kernelMatrix variance ls X i j * x j))
      = variance * ∑ i, ∑ j,
          (x i * Real.exp (-(∑ q, (X i q / ls q) ^ 2) / 2))
            * (x j * Real.exp (-(∑ q, (X j q / ls q) ^ 2) / 2))
            * Real.exp (∑ q, (X i q / ls q) * (X j q / ls q)) := by
    rw [Finset.mul_sum]
    refine Finset.sum_congr rfl fun i _ => ?_
    rw [Finset.mul_sum]
    refine Finset.sum_congr rfl fun j _ => ?_
    have hk : kernelMatrix variance ls X i j = rbfKernel variance ls (X i) (X j) := rfl
    rw [hk, rbfKernel_factor]
    ring
  rw [heq]
  exact mul_nonneg hvar hgram

/-- C5: for strictly positive kernel variance and length scales, the kernel
matrix of any batch of latent vectors against itself is symmetric and positive
semi-definite. -/
theorem kernelMatrix_symmetric_posSemidef {n Q : ℕ} (variance : ℝ) (ls : Fin Q → ℝ)
    (X : Fin n → Fin Q → ℝ) (hvar : 0 < variance) (hls : ∀ q, 0 < ls q) :
    (kernelMatrix variance ls X).IsSymm ∧ (kernelMatrix variance ls X).PosSemidef := by
  refine ⟨Matrix.IsSymm.ext fun i j => kernelMatrix_apply_comm variance ls X i j, ?_, ?_⟩
  · exact Matrix.IsHermitian.ext fun i j => by
      rw [star_trivial]
      exact kernelMatrix_apply_comm variance ls X i j
  · intro y
    have hq := kernelMatrix_quadratic_nonneg variance ls X hvar.le y
    simpa [Matrix.dotProduct, Matrix.mulVec, Finset.mul_sum] using hq

theorem kernelMatrix_symmetric_posSemidef_witness :
    ((0 : ℝ) < 1 ∧ ∀ q : Fin 1, (0 : ℝ) < 1) ∧
      (kernelMatrix 1 (fun _ : Fin 1 => (1 : ℝ))
        (fun _ : Fin 1 => fun _ : Fin 1 => (0 : ℝ))).PosSemidef :=
  ⟨⟨one_pos, fun _ => one_pos⟩,
    (kernelMatrix_symmetric_posSemidef 1 (fun _ : Fin 1 => (1 : ℝ))
      (fun _ : Fin 1 => fun _ : Fin 1 => (0 : ℝ)) one_pos fun _ => one_pos).2⟩

/-- Modelled from the spec (section 3, data model; the library's parameter
storage is external): the full mutable state of the model, holding the
observation matrix and the unconstrained representations of every free
parameter.  Variance- and scale-type parameters are stored unconstrained and
read through the softplus transform; latent means and inducing locations carry
no transform. -/
structure ModelState where
  Y : List (List ℝ)
  xMeanU : List (List ℝ)
  xVarU : List (List ℝ)
  kernelVarU : ℝ
  lengthscalesU : List ℝ
  noiseVarU : ℝ
  inducingZ : List (List ℝ)

/-- Modelled from the spec (section 4.5): one optimizer write, carrying new
unconstrained values for exactly the trainable parameters.  The observation
matrix has no slot here. -/
structure ParamUpdate where
  xMeanU : List (List ℝ)
  xVarU : List (List ℝ)
  kernelVarU : ℝ
  lengthscalesU : List ℝ
  noiseVarU : ℝ
  inducingZ : List (List ℝ)

/-- Modelled from the spec: applying an optimizer write to the state mutates
the trainable parameters in place and nothing else. -/
def applyUpdate (s : ModelState) (u : ParamUpdate) : ModelState :=
  { Y := s.Y
    xMeanU := u.xMeanU
    xVarU := u.xVarU
    kernelVarU := u.kernelVarU
    lengthscalesU := u.lengthscalesU
    noiseVarU := u.noiseVarU
    inducingZ := u.inducingZ }

/-- Names of the variables handed to `opt.minimize` via
`gplvm.trainable_variables` in the notebook, as shown by `print_summary`. -/
def trainableVariableNames : List String :=
  ["x_data_mean", "x_data_var", "kernel.variance", "kernel.lengthscale",
    "likelihood.variance", "inducing_variable.Z"]

inductive OptStatus where
  | converged
  | budgetExhausted
deriving DecidableEq

structure OptResult where
  state : ModelState
  iterations : ℕ
  status : OptStatus

/-- Modelled from the spec (section 4.5, optimizer driver): iterative
optimization under a finite iteration budget.  Each iteration applies one
optimizer write; the loop stops either when the convergence test fires
(status `converged`) or when the budget is exhausted (status
`budgetExhausted`, a reported status rather than an error). -/
def minimizeLoop (grad : ModelState → ParamUpdate) (conv : ModelState → Bool) :
    ℕ → ℕ → ModelState → OptResult
  | 0, iters, s => ⟨s, iters, OptStatus.budgetExhausted⟩
  | fuel + 1, iters, s =>
    if conv s then ⟨s, iters, OptStatus.converged⟩
    else minimizeLoop grad conv fuel (iters + 1) (applyUpdate s (grad s))

/-- Modelled from the spec (section 4.6): the constrained latent posterior
variances, read through the softplus transform. -/
noncomputable def constrainedXVar (s : ModelState) : List (List ℝ) :=
  s.xVarU.map (List.map softplus)

/-- Modelled from the spec (section 4.6): the constrained kernel variance. -/
noncomputable def constrainedKernelVar (s : ModelState) : ℝ := softplus s.kernelVarU

/-- Modelled from the spec (section 4.6): the constrained per-dimension length
scales. -/
noncomputable def constrainedLengthscales (s : ModelState) : List ℝ :=
  s.lengthscalesU.map softplus

/-- Modelled from the spec (section 4.6): the constrained likelihood noise
variance. -/
noncomputable def constrainedNoiseVar (s : ModelState) : ℝ := softplus s.noiseVarU

/-- Modelled from the spec (section 4.6): latent means carry no transform, so
their constrained value is the raw stored value. -/
def constrainedXMean (s : ModelState) : List (List ℝ) := s.xMeanU

/-- Every variance- or scale-type constrained parameter of the model, flattened
into one list: latent posterior variances, kernel variance, length scales, and
likelihood noise variance. -/
noncomputable def constrainedVarianceParams (s : ModelState) : List ℝ :=
  (constrainedXVar s).flatten
    ++ constrainedKernelVar s :: constrainedLengthscales s
    ++ [constrainedNoiseVar s]

theorem mem_constrainedVarianceParams {s : ModelState} {v : ℝ}
    (hv : v ∈ constrainedVarianceParams s) : ∃ w : ℝ, v = softplus w := by
  unfold constrainedVarianceParams constrainedXVar constrainedKernelVar
    constrainedLengthscales constrainedNoiseVar at hv
  rcases List.mem_append.mp hv with h | h
  · rcases List.mem_append.mp h with h1 | h1
    · rcases List.mem_flatten.mp h1 with ⟨row, hrow, hvrow⟩
      rcases List.mem_map.mp hrow with ⟨urow, _, rfl⟩
      rcases List.mem_map.mp hvrow with ⟨w, _, rfl⟩
      exact ⟨w, rfl⟩
    · rcases List.mem_cons.mp h1 with h2 | h2
      · exact ⟨s.kernelVarU, h2⟩
      · rcases List.mem_map.mp h2 with ⟨w, _, rfl⟩
        exact ⟨w, rfl⟩
  · rcases List.mem_singleton.mp h with rfl
    exact ⟨s.noiseVarU, rfl⟩

/-- Modelled from the spec (section 4.4): the Gaussian data-fit term of the
bound.  The precise sparse-approximation formula is internal to the external
library (the spec's section 9 records that it is not shown in the source
material); it is modelled here as the Gaussian log-density shape the spec
describes, using the constrained noise variance. -/
noncomputable def dataFitTerm (s : ModelState) : ℝ :=
  -(((s.Y.map List.length).sum : ℝ) / 2)
      * Real.log (2 * Real.pi * constrainedNoiseVar s)
    - (s.Y.map fun row => (row.map fun y => y ^ 2).sum).sum
      / (2 * constrainedNoiseVar s)

/-- Modelled from the spec (section 4.3): the KL regularizer of the model
state, summing `klGauss` over every latent mean/variance entry. -/
noncomputable def klTermState (s : ModelState) : ℝ :=
  (List.zipWith (fun mrow vrow => (List.zipWith klGauss mrow vrow).sum)
    s.xMeanU (constrainedXVar s)).sum

/-- Modelled from the spec (section 4.4 (e)): the trace-correction term
accounting for the rank deficiency of the sparse approximation; its exact
formula is internal to the external library, modelled here through the latent
variances and the noise variance. -/
noncomputable def traceCorrection (s : ModelState) : ℝ :=
  ((constrainedXVar s).map List.sum).sum / (2 * constrainedNoiseVar s)

/-- Modelled from the spec (section 4.4, ELBO engine): the scalar lower bound
on the log marginal likelihood, combining the data-fit term, the KL
regularizer, and the trace correction.  This is the quantity the notebook
reads as `gplvm.log_marginal_likelihood()`. -/
noncomputable def log_marginal_likelihood (s : ModelState) : ℝ :=
  dataFitTerm s - klTermState s - traceCorrection s

/-- Embedded from the notebook (cell defining `optimization_step`): the
objective handed to `opt.minimize` is `- gplvm.log_marginal_likelihood()`. -/
noncomputable def optimization_step (s : ModelState) : ℝ :=
  -(log_marginal_likelihood s)

/-- C2: the optimizer objective is the pointwise negation of the model's ELBO,
so minimizing it is equivalent to maximizing the bound. -/
theorem optimization_step_eq_neg_elbo :
    (∀ s : ModelState, optimization_step s = -(log_marginal_likelihood s)) ∧
    (∀ s t : ModelState, optimization_step s ≤ optimization_step t ↔
      log_marginal_likelihood t ≤ log_marginal_likelihood s) :=
  ⟨fun _ => rfl, fun _ _ => neg_le_neg_iff⟩

/-- C6: the observation matrix is not among the trainable variables handed to
the optimizer, a single optimizer write leaves it untouched, and an entire
optimization run of any length leaves it untouched. -/
theorem observation_matrix_immutable :
    ("data" ∉ trainableVariableNames) ∧
    (∀ (s : ModelState) (u : ParamUpdate), (applyUpdate s u).Y = s.Y) ∧
    (∀ (grad : ModelState → ParamUpdate) (conv : ModelState → Bool)
      (fuel iters : ℕ) (s : ModelState),
      (minimizeLoop grad conv fuel iters s).state.Y = s.Y) := by
  refine ⟨by decide, fun s u => rfl, fun grad conv fuel => ?_⟩
  induction fuel with
  | zero => intro iters s; rfl
  | succ fuel ih =>
    intro iters s
    unfold minimizeLoop
    by_cases hc : conv s
    · simp [hc]
    · simp only [hc, if_false, Bool.false_eq_true]
      exact ih (iters + 1) (applyUpdate s (grad s))

/-- C7: strict positivity of every variance- and scale-type constrained
parameter holds in every model state (hence after every optimizer iteration,
since iterations only produce further states), and the latent means are read
back untransformed. -/
theorem positivity_invariant :
    (∀ (s : ModelState) (v : ℝ), v ∈ constrainedVarianceParams s → 0 < v) ∧
    (∀ s : ModelState, constrainedXMean s = s.xMeanU) ∧
    (∀ (grad : ModelState → ParamUpdate) (conv : ModelState → Bool)
      (fuel iters : ℕ) (s : ModelState) (v : ℝ),
      v ∈ constrainedVarianceParams (minimizeLoop grad conv fuel iters s).state →
        0 < v) := by
  have hpos : ∀ (s : ModelState) (v : ℝ), v ∈ constrainedVarianceParams s → 0 < v := by
    intro s v hv
    rcases mem_constrainedVarianceParams hv with ⟨w, rfl⟩
    exact softplus_pos w
  exact ⟨hpos, fun _ => rfl, fun grad conv fuel iters s v hv => hpos _ v hv⟩

theorem positivity_invariant_witness :
    0 < softplus 0 :=
  positivity_invariant.1 ⟨[], [], [], 0, [], 0, []⟩ (softplus 0)
    (by
      simp [constrainedVarianceParams, constrainedXVar, constrainedKernelVar,
        constrainedLengthscales, constrainedNoiseVar])

theorem minimizeLoop_iterations_le (grad : ModelState → ParamUpdate)
    (conv : ModelState → Bool) (fuel iters : ℕ) (s : ModelState) :
    (minimizeLoop grad conv fuel iters s).iterations ≤ iters + fuel := by
  induction fuel generalizing iters s with
  | zero => exact Nat.le_refl _
  | succ fuel ih =>
    unfold minimizeLoop
    by_cases hc : conv s
    · simp [hc]
    · simp only [hc, if_false, Bool.false_eq_true]
      have := ih (iters + 1) (applyUpdate s (grad s))
      omega

/-- C8: for the notebook configuration (N = 100, D = 12, Q = 2, M = 20) and a
1000-iteration budget, the optimization run terminates with at most 1000
iterations performed, reporting either convergence or budget exhaustion (the
latter being a status, not an error), and every variance-type constrained
parameter of the final state is strictly positive. -/
theorem end_to_end_run_terminates (grad : ModelState → ParamUpdate)
    (conv : ModelState → Bool) (s0 : ModelState)
    (hshape : s0.Y.length = 100 ∧ (∀ row ∈ s0.Y, row.length = 12) ∧
      s0.xMeanU.length = 100 ∧ s0.xVarU.length = 100 ∧
      s0.lengthscalesU.length = 2 ∧ s0.inducingZ.length = 20) :
    (minimizeLoop grad conv 1000 0 s0).iterations ≤ 1000 ∧
    ((minimizeLoop grad conv 1000 0 s0).status = OptStatus.converged ∨
      (minimizeLoop grad conv 1000 0 s0).status = OptStatus.budgetExhausted) ∧
    (∀ v ∈ constrainedVarianceParams (minimizeLoop grad conv 1000 0 s0).state,
      0 < v) := by
  refine ⟨minimizeLoop_iterations_le grad conv 1000 0 s0, ?_, ?_⟩
  · cases h : (minimizeLoop grad conv 1000 0 s0).status
    · exact Or.inl rfl
    · exact Or.inr rfl
  · intro v hv
    rcases mem_constrainedVarianceParams hv with ⟨w, rfl⟩
    exact softplus_pos w

theorem end_to_end_run_terminates_witness :
    (minimizeLoop (fun _ => ⟨[], [], 0, [], 0, []⟩) (fun _ => false) 1000 0
      ⟨List.replicate 100 (List.replicate 12 0),
        List.replicate 100 (List.replicate 2 0),
        List.replicate 100 (List.replicate 2 0), 0,
        List.replicate 2 0, 0,
        List.replicate 20 (List.replicate 2 0)⟩).iterations ≤ 1000 :=
  (end_to_end_run_terminates (fun _ => ⟨[], [], 0, [], 0, []⟩) (fun _ => false)
    ⟨List.replicate 100 (List.replicate 12 0),
      List.replicate 100 (List.replicate 2 0),
      List.replicate 100 (List.replicate 2 0), 0,
      List.replicate 2 0, 0,
      List.replicate 20 (List.replicate 2 0)⟩
    (by
      refine ⟨by simp, ?_, by simp, by simp, by simp, by simp⟩
      intro row hrow
      rw [List.eq_of_mem_replicate hrow]
      simp)).1

/-- Embedded from the notebook's plotting cell: the plotting layer consumes the
PCA projection, the learned latent means, and the class labels. -/
structure PlotData where
  pcaPoints : List (List ℝ)
  gplvmPoints : List (List ℝ)
  labels : List ℤ

/-- Embedded from the notebook's model-construction cell: the
`BayesianGPLVM` constructor receives the observation matrix, the PCA latent
means, the unit latent variances, the kernel parameters, the likelihood
variance, and the inducing locations — and nothing else; in particular the
class labels are not among its inputs. -/
def buildModel (Ydata xMeanInit xVarInit : List (List ℝ)) (kernelVarU : ℝ)
    (lengthscalesU : List ℝ) (noiseVarU : ℝ) (inducingZ : List (List ℝ)) :
    ModelState :=
  ⟨Ydata, xMeanInit, xVarInit, kernelVarU, lengthscalesU, noiseVarU, inducingZ⟩

/-- Embedded from the notebook's plotting loop: labels are consumed here,
after training, and only here. -/
def makePlot (trained : ModelState) (xpca : List (List ℝ)) (labels : List ℤ) :
    PlotData :=
  ⟨xpca, trained.xMeanU, labels⟩

/-- Embedded from the notebook's linear cell sequence: build the model, run the
optimizer, then hand the trained state and the labels to the plotting layer. -/
def runNotebook (Ydata xMeanInit xVarInit : List (List ℝ)) (kernelVarU : ℝ)
    (lengthscalesU : List ℝ) (noiseVarU : ℝ) (inducingZ : List (List ℝ))
    (grad : ModelState → ParamUpdate) (conv : ModelState → Bool) (maxiter : ℕ)
    (labels : List ℤ) : OptResult × PlotData :=
  let result := minimizeLoop grad conv maxiter 0
    (buildModel Ydata xMeanInit xVarInit kernelVarU lengthscalesU noiseVarU inducingZ)
  (result, makePlot result.state xMeanInit labels)

/-- C1: two notebook runs that differ only in the labels array produce
identical training results — the same final parameters, iteration count, and
status — because model construction and every optimizer iteration never read
the labels; the labels reach only the plotting layer, unchanged. -/
theorem labels_never_read_by_core
    (Ydata xMeanInit xVarInit : List (List ℝ)) (kernelVarU : ℝ)
    (lengthscalesU : List ℝ) (noiseVarU : ℝ) (inducingZ : List (List ℝ))
    (grad : ModelState → ParamUpdate) (conv : ModelState → Bool) (maxiter : ℕ)
    (labels1 labels2 : List ℤ) :
    (runNotebook Ydata xMeanInit xVarInit kernelVarU lengthscalesU noiseVarU
        inducingZ grad conv maxiter labels1).1
      = (runNotebook Ydata xMeanInit xVarInit kernelVarU lengthscalesU noiseVarU
        inducingZ grad conv maxiter labels2).1 ∧
    (runNotebook Ydata xMeanInit xVarInit kernelVarU lengthscalesU noiseVarU
        inducingZ grad conv maxiter labels1).2.labels = labels1 :=
  ⟨rfl, rfl⟩

inductive ConfigError where
  | nonPositiveParameter
deriving DecidableEq

structure KernelConfig where
  variance : ℝ
  lengthscales : List ℝ

open Classical in
/-- Modelled from the spec (sections 4.1 and 7): kernel construction validates
that the variance and every length scale are strictly positive; a violation is
a configuration error reported immediately at construction. -/
noncomputable def buildKernel (variance : ℝ) (lengthscales : List ℝ) :
    Except ConfigError KernelConfig :=
  if 0 < variance ∧ ∀ l ∈ lengthscales, 0 < l then
    Except.ok ⟨variance, lengthscales⟩
  else Except.error ConfigError.nonPositiveParameter

/-- Modelled from the spec (section 7): the training pipeline first constructs
the kernel and only on success runs the optimizer, so configuration errors are
raised before any optimization work. -/
noncomputable def buildAndTrain (variance : ℝ) (lengthscales : List ℝ)
    (s0 : ModelState) (grad : ModelState → ParamUpdate) (conv : ModelState → Bool)
    (maxiter : ℕ) : Except ConfigError OptResult :=
  match buildKernel variance lengthscales with
  | Except.error e => Except.error e
  | Except.ok _ => Except.ok (minimizeLoop grad conv maxiter 0 s0)

/-- C9: supplying a non-positive kernel variance or length scale makes kernel
construction fail eagerly with a fatal configuration error, and the whole
training pipeline reports that error without ever reaching the optimizer. -/
theorem nonpositive_kernel_param_rejected (variance : ℝ) (lengthscales : List ℝ)
    (hbad : variance ≤ 0 ∨ ∃ l ∈ lengthscales, l ≤ 0) :
    buildKernel variance lengthscales
        = Except.error ConfigError.nonPositiveParameter ∧
    ∀ (s0 : ModelState) (grad : ModelState → ParamUpdate)
      (conv : ModelState → Bool) (maxiter : ℕ),
      buildAndTrain variance lengthscales s0 grad conv maxiter
        = Except.error ConfigError.nonPositiveParameter := by
  have hcond : ¬(0 < variance ∧ ∀ l ∈ lengthscales, 0 < l) := by
    rintro ⟨hvpos, hall⟩
    rcases hbad with h | ⟨l, hl, hle⟩
    · linarith
    · exact absurd (hall l hl) (not_lt.mpr hle)
  have hbuild : buildKernel variance lengthscales
      = Except.error ConfigError.nonPositiveParameter := by
    unfold buildKernel
    rw [if_neg hcond]
  refine ⟨hbuild, fun s0 grad conv maxiter => ?_⟩
  unfold buildAndTrain
  rw [hbuild]

theorem nonpositive_kernel_param_rejected_witness :
    buildKernel 1 [0] = Except.error ConfigError.nonPositiveParameter :=
  (nonpositive_kernel_param_rejected 1 [0]
    (Or.inr ⟨0, List.mem_singleton_self 0, le_refl 0⟩)).1

/-- Embedded from the notebook's `inducing_variable` cell: the inducing
variable is the first 20 rows of a random permutation of the 100 PCA-derived
latent means; the permutation drawn by the random-number generator is modelled
as an arbitrary permutation of the 100 row indices. -/
def inducingVariableInit (perm : Equiv.Perm (Fin 100))
    (xMeanInit : Fin 100 → Fin 2 → ℝ) : Fin 20 → Fin 2 → ℝ :=
  fun m => xMeanInit (perm (Fin.castLE (by norm_num) m))

/-- C10: the initial inducing variable is a 20 × 2 matrix each of whose rows
coincides with some data point's initial latent mean, and whose rows are
pairwise distinct whenever the PCA means are. -/
theorem inducingVariableInit_rows (perm : Equiv.Perm (Fin 100))
    (xMeanInit : Fin 100 → Fin 2 → ℝ) :
    (∀ m : Fin 20, ∃ i : Fin 100,
      inducingVariableInit perm xMeanInit m = xMeanInit i) ∧
    (Function.Injective xMeanInit →
      Function.Injective (inducingVariableInit perm xMeanInit)) := by
  constructor
  · intro m
    exact ⟨perm (Fin.castLE (by norm_num) m), rfl⟩
  · intro hinj m1 m2 h
    have h1 := perm.injective (hinj h)
    exact Fin.castLE_injective _ h1

theorem inducingVariableInit_rows_witness :
    Function.Injective
      (inducingVariableInit (Equiv.refl (Fin 100))
        fun i _ => ((i : ℕ) : ℝ)) :=
  (inducingVariableInit_rows (Equiv.refl (Fin 100))
    fun i _ => ((i : ℕ) : ℝ)).2
    (fun a b h => Fin.ext (Nat.cast_injective (congrFun h 0)))

end GPLVMSpec
